import Mathlib

/-!
Verification development for the observable-property / notification core of
the gtkmvc3 repository (`gtkmvc3/observer.py`).

The Python code is shallowly embedded: Python dictionaries become
association lists with unique keys, Python sets become duplicate-free lists
compared by membership, and exceptions become `Except` / explicit error
fields.  All definitions are direct translations of the source; the glob
matcher mirrors the semantics of the standard-library `fnmatch` module
(on POSIX, where `os.path.normcase` is the identity).
-/

namespace Gtkmvc3

/-! ## Python value model -/

/-- A (sufficient) model of Python values appearing in notification
dictionaries: `none`, booleans, integers, strings and opaque objects
(models, methods, ...), which are truthy. -/
inductive PyVal where
  | none
  | bool (b : Bool)
  | int (n : Int)
  | str (s : String)
  | obj (id : Nat)
  deriving DecidableEq, Repr

/-- Python truthiness of a `PyVal`.  Arbitrary objects are truthy by
default. -/
def truthy : PyVal → Bool
  | PyVal.none => false
  | PyVal.bool b => b
  | PyVal.int n => decide (n ≠ 0)
  | PyVal.str s => decide (s ≠ "")
  | PyVal.obj _ => true

/-- The Python exceptions raised by the embedded code. -/
inductive PyErr where
  | keyError
  | assertionError
  | attributeError
  | valueError
  deriving DecidableEq, Repr

/-! ## Association-list dictionaries

Python `dict` objects are embedded as association lists in insertion
order with unique keys.  `lookupD` is `d[k]` / `d.get(k)`, `setD` is
`d[k] = v` (updating in place preserves position, a new key is appended),
`delD` is `del d[k]` (keys are unique, so removing every binding of `k`
is the same operation). -/

/-- Dictionary lookup: first binding of the key, if any. -/
def lookupD {α β : Type} [DecidableEq α] : List (α × β) → α → Option β
  | [], _ => Option.none
  | p :: t, k => if p.1 = k then some p.2 else lookupD t k

/-- Dictionary update `d[k] = v`: replaces the first binding of `k`
in place, or appends a new binding. -/
def setD {α β : Type} [DecidableEq α] : List (α × β) → α → β → List (α × β)
  | [], k, v => [(k, v)]
  | p :: t, k, v => if p.1 = k then (k, v) :: t else p :: setD t k v

/-- Dictionary deletion `del d[k]`: removes the bindings of `k`. -/
def delD {α β : Type} [DecidableEq α] : List (α × β) → α → List (α × β)
  | [], _ => []
  | p :: t, k => if p.1 = k then delD t k else p :: delD t k

/-- The keys of a dictionary, in order. -/
def keysD {α β : Type} (d : List (α × β)) : List α := d.map Prod.fst

/-- A dictionary is well formed when its keys are pairwise distinct
(as Python dictionaries always are). -/
def NodupKeys {α β : Type} (d : List (α × β)) : Prop := (keysD d).Nodup

/-- Python `set.add`: sets are embedded as duplicate-free lists, compared
by membership only. -/
def insertSet {μ : Type} [DecidableEq μ] (l : List μ) (a : μ) : List μ :=
  if a ∈ l then l else l ++ [a]

/-- Python `set.union` / `|`. -/
def setUnion {μ : Type} [DecidableEq μ] (a b : List μ) : List μ :=
  b.foldl insertSet a

/-! ### Dictionary lemmas -/

theorem lookupD_setD_self {α β : Type} [DecidableEq α]
    (d : List (α × β)) (k : α) (v : β) : lookupD (setD d k v) k = some v := by
  induction d with
  | nil => simp [setD, lookupD]
  | cons p t ih =>
    by_cases h : p.1 = k <;> simp [setD, lookupD, h, ih]

theorem lookupD_setD_ne {α β : Type} [DecidableEq α]
    (d : List (α × β)) (k k' : α) (v : β) (h : k' ≠ k) :
    lookupD (setD d k v) k' = lookupD d k' := by
  have hk : ¬ k = k' := fun h' => h h'.symm
  induction d with
  | nil => simp [setD, lookupD, hk]
  | cons p t ih =>
    by_cases hp : p.1 = k
    · simp [setD, lookupD, hp, hk]
    · simp only [setD, hp, if_false, lookupD]
      by_cases hp' : p.1 = k' <;> simp [hp', ih]

theorem lookupD_delD {α β : Type} [DecidableEq α]
    (d : List (α × β)) (k k' : α) :
    lookupD (delD d k) k' = if k' = k then Option.none else lookupD d k' := by
  induction d with
  | nil => simp [delD, lookupD]
  | cons p t ih =>
    simp only [delD]
    by_cases hp : p.1 = k
    · rw [if_pos hp, ih]
      by_cases hk : k' = k
      · simp [hk]
      · have hp' : ¬ p.1 = k' := fun h => hk (h.symm.trans hp)
        simp [lookupD, hk, hp']
    · rw [if_neg hp]
      simp only [lookupD]
      by_cases hp' : p.1 = k'
      · have hk : ¬ k' = k := fun h => hp (hp'.trans h)
        simp [hp', hk]
      · simp [hp', ih]

theorem mem_keysD_iff_lookupD {α β : Type} [DecidableEq α]
    (d : List (α × β)) (k : α) :
    k ∈ keysD d ↔ (lookupD d k).isSome := by
  induction d with
  | nil => simp [keysD, lookupD]
  | cons p t ih =>
    by_cases hp : p.1 = k
    · simp [keysD, lookupD, hp]
    · simp only [keysD, List.map_cons, List.mem_cons, lookupD, hp, if_false]
      constructor
      · rintro (h | h)
        · exact absurd h.symm hp
        · exact (ih.mp (by simpa [keysD] using h))
      · intro h
        exact Or.inr (by simpa [keysD] using ih.mpr h)

theorem mem_insertSet {μ : Type} [DecidableEq μ] (l : List μ) (a b : μ) :
    a ∈ insertSet l b ↔ a ∈ l ∨ a = b := by
  unfold insertSet
  by_cases h : b ∈ l
  · rw [if_pos h]
    constructor
    · exact fun ha => Or.inl ha
    · rintro (ha | rfl)
      · exact ha
      · exact h
  · rw [if_neg h]
    simp [List.mem_append]

theorem mem_setUnion {μ : Type} [DecidableEq μ] (a : μ) (x y : List μ) :
    a ∈ setUnion x y ↔ a ∈ x ∨ a ∈ y := by
  induction y generalizing x with
  | nil => simp [setUnion]
  | cons c t ih =>
    have h1 : setUnion x (c :: t) = setUnion (insertSet x c) t := rfl
    rw [h1, ih (insertSet x c), mem_insertSet]
    simp only [List.mem_cons]
    tauto

/-! ## NTInfo (`observer.py`, class `NTInfo`)

`NTInfo` is a `dict` subclass; an instance is embedded as its underlying
dictionary. -/

/-- An `NTInfo` instance's entries: a Python dictionary. -/
abbrev Dict := List (String × PyVal)

/-- `NTInfo.__ONE_REQUESTED`: at least one of these flag keys is required
when constructing. -/
def ONE_REQUESTED : List String := ["assign", "before", "after", "signal"]

/-- `NTInfo.__ALL_REQUESTED`: always provided by the framework. -/
def ALL_REQUESTED : List String := ["model", "prop_name"]

/-- `NTInfo.__init__(self, _type, *args, **kwargs)`.  The dictionary `d` is
the result of `dict.__init__(self, *args, **kwargs)`.  Raises `KeyError`
when the key `_type` is absent or maps to a falsy value, then asserts that
`model` and `prop_name` are present, then deletes every flag of
`__ONE_REQUESTED` other than `_type`. -/
def NTInfo_init (t : String) (d : Dict) : Except PyErr Dict :=
  match lookupD d t with
  | Option.none => Except.error PyErr.keyError
  | some v =>
    if truthy v = false then Except.error PyErr.keyError
    else if ALL_REQUESTED.all (fun k => (lookupD d k).isSome) = false then
      Except.error PyErr.assertionError
    else
      Except.ok (ONE_REQUESTED.foldl
        (fun acc flag => if flag = t then acc else delD acc flag) d)

/-- The attribute names found on the type of an `NTInfo` instance: the
methods and dunder attributes of `dict`, those of `object`, and the class
attributes `NTInfo` itself adds.  Python attribute lookup resolves these
before falling back to `NTInfo.__getattr__`. -/
def ntinfoTypeAttrs : List String :=
  ["keys", "values", "items", "get", "pop", "popitem", "clear", "copy",
   "update", "setdefault", "fromkeys",
   "__class__", "__contains__", "__delattr__", "__delitem__", "__dir__",
   "__doc__", "__eq__", "__format__", "__ge__", "__getattribute__",
   "__getitem__", "__gt__", "__hash__", "__init__", "__init_subclass__",
   "__iter__", "__le__", "__len__", "__lt__", "__ne__", "__new__",
   "__reduce__", "__reduce_ex__", "__repr__", "__reversed__",
   "__setattr__", "__setitem__", "__sizeof__", "__str__",
   "__subclasshook__", "__module__", "__dict__", "__weakref__",
   "__getattr__", "_NTInfo__ONE_REQUESTED", "_NTInfo__ALL_REQUESTED"]

/-- The result of a successful Python attribute access on an `NTInfo`. -/
inductive AttrVal where
  | fromType (name : String)
  | fromDict (v : PyVal)
  deriving DecidableEq, Repr

/-- `NTInfo.__getattr__(self, name)`: returns `self[name]`, turning the
`KeyError` of a missing key into `AttributeError`.  Python only calls this
hook after normal attribute lookup has failed. -/
def NTInfo_getattr_hook (n : Dict) (name : String) : Except PyErr PyVal :=
  match lookupD n name with
  | some v => Except.ok v
  | Option.none => Except.error PyErr.attributeError

/-- Full Python attribute access `n.k` on an `NTInfo` instance `n`:
attributes of the type (`dict` methods, class attributes) are found first;
only when that lookup fails is `NTInfo.__getattr__` invoked.  `NTInfo`
instances have no instance attributes (`__init__` sets none). -/
def NTInfo_getattribute (n : Dict) (k : String) : Except PyErr AttrVal :=
  if k ∈ ntinfoTypeAttrs then Except.ok (AttrVal.fromType k)
  else
    match NTInfo_getattr_hook n k with
    | Except.ok v => Except.ok (AttrVal.fromDict v)
    | Except.error e => Except.error e

/-- `dict.__setitem__`, inherited unchanged by `NTInfo`. -/
def dict_setitem (n : Dict) (k : String) (v : PyVal) : Dict := setD n k v

/-! ## fnmatch (Python standard library, used by `observer.py`)

`fnmatch.fnmatch(name, pat)` on POSIX (where `os.path.normcase` is the
identity) matches `name` against the shell-style pattern `pat`:
`*` matches any run of characters, `?` any single character, `[seq]` a
character of `seq` (with `-` ranges), `[!seq]` a character not in `seq`;
a `[` without a closing `]` is a literal.  The whole string must match. -/

/-- Splits a character-class body at its closing `]`, returning
the body and the remaining pattern; `none` when there is no closing `]`. -/
def splitAtClose : List Char → Option (List Char × List Char)
  | [] => Option.none
  | c :: t =>
    if c = ']' then some ([], t)
    else (splitAtClose t).map (fun pr => (c :: pr.1, pr.2))

/-- The class body after an optional negation marker: a first `]` stands
for itself, then the body runs to the closing `]`. -/
def parseClassBody : List Char → Option (List Char × List Char)
  | [] => Option.none
  | c :: t =>
    if c = ']' then (splitAtClose t).map (fun pr => (c :: pr.1, pr.2))
    else splitAtClose (c :: t)

/-- Parses the pattern after a `[`: strips a leading `!` (negation), lets a
first `]` stand for itself, and finds the closing `]`; mirrors
`fnmatch.translate`.  Returns (negated, class body, rest of pattern). -/
def parseClass : List Char → Option (Bool × List Char × List Char)
  | [] => Option.none
  | c :: t =>
    if c = '!' then (parseClassBody t).map (fun pr => (true, pr.1, pr.2))
    else (parseClassBody (c :: t)).map (fun pr => (false, pr.1, pr.2))

/-- Does character `c` match the (non-negated) class body?  `a-b` denotes a
codepoint range; a `-` that cannot form a range stands for itself. -/
def classMatch (c : Char) : List Char → Bool
  | a :: '-' :: b :: rest =>
    (a ≤ c && c ≤ b) || classMatch c rest
  | a :: rest => c == a || classMatch c rest
  | [] => false

/-- The glob matcher, fuelled so that it is structurally recursive (and
hence evaluates inside the kernel): every recursive call consumes at least
one pattern or string element, so `ps.length + s.length` is strictly
decreasing and `ps.length + s.length + 1` units of fuel always suffice. -/
def gmatchF : Nat → List Char → List Char → Bool
  | 0, _, _ => false
  | fuel + 1, ps, s =>
    match ps with
    | [] => s.isEmpty
    | p :: pt =>
      if p = '*' then
        match s with
        | [] => gmatchF fuel pt []
        | c :: cs => gmatchF fuel pt (c :: cs) || gmatchF fuel (p :: pt) cs
      else if p = '?' then
        match s with
        | [] => false
        | _ :: cs => gmatchF fuel pt cs
      else if p = '[' then
        match s with
        | [] => false
        | c :: cs =>
          match parseClass pt with
          | some (neg, body, rest) =>
            (classMatch c body != neg) && gmatchF fuel rest cs
          | Option.none => c == '[' && gmatchF fuel pt cs
      else
        match s with
        | [] => false
        | c :: cs => p == c && gmatchF fuel pt cs

/-- The glob matcher: `gmatch pat s` holds when the whole string `s`
matches the whole pattern `pat` (semantics of `fnmatch.translate`). -/
def gmatch (ps s : List Char) : Bool :=
  gmatchF (ps.length + s.length + 1) ps s

/-- `fnmatch.fnmatch(name, pat)` (POSIX). -/
def fnmatch (name pat : String) : Bool := gmatch pat.data name.data

/-! ### The fuel of `gmatchF` is irrelevant above the natural bound

These lemmas justify the fuel encoding: every recursive call of the
matcher consumes at least one pattern or string element, so any two fuels
above `ps.length + s.length` give the same answer — `gmatch` computes the
unbounded recursion it stands for. -/

theorem splitAtClose_length :
    ∀ (ps body rest : List Char), splitAtClose ps = some (body, rest) →
      rest.length < ps.length := by
  intro ps
  induction ps with
  | nil => intro body rest h; simp [splitAtClose] at h
  | cons c t ih =>
    intro body rest h
    simp only [splitAtClose] at h
    by_cases hc : c = ']'
    · rw [if_pos hc] at h
      injection h with h'
      have : rest = t := (congrArg Prod.snd h').symm
      subst this
      simp
    · rw [if_neg hc] at h
      cases hs : splitAtClose t with
      | none => rw [hs] at h; cases h
      | some pr =>
        rw [hs] at h
        injection h with h'
        have : rest = pr.2 := (congrArg Prod.snd h').symm
        subst this
        exact Nat.lt_trans (ih pr.1 pr.2 (by rw [hs])) (by simp)

theorem parseClassBody_length :
    ∀ (qs body rest : List Char), parseClassBody qs = some (body, rest) →
      rest.length < qs.length := by
  intro qs
  cases qs with
  | nil => intro body rest h; simp [parseClassBody] at h
  | cons c t =>
    intro body rest h
    simp only [parseClassBody] at h
    by_cases hc : c = ']'
    · rw [if_pos hc] at h
      cases hs : splitAtClose t with
      | none => rw [hs] at h; cases h
      | some pr =>
        rw [hs] at h
        injection h with h'
        have : rest = pr.2 := (congrArg Prod.snd h').symm
        subst this
        exact Nat.lt_trans (splitAtClose_length t pr.1 pr.2 hs) (by simp)
    · rw [if_neg hc] at h
      exact splitAtClose_length (c :: t) body rest h

theorem parseClass_length :
    ∀ (ps : List Char) (neg : Bool) (body rest : List Char),
      parseClass ps = some (neg, body, rest) → rest.length < ps.length := by
  intro ps
  cases ps with
  | nil => intro neg body rest h; simp [parseClass] at h
  | cons c t =>
    intro neg body rest h
    simp only [parseClass] at h
    by_cases hc : c = '!'
    · rw [if_pos hc] at h
      cases hb : parseClassBody t with
      | none => rw [hb] at h; cases h
      | some pr =>
        rw [hb] at h
        injection h with h'
        have : rest = pr.2 := (congrArg (fun q => q.2.2) h').symm
        subst this
        exact Nat.lt_trans (parseClassBody_length t pr.1 pr.2 (by rw [hb]))
          (by simp)
    · rw [if_neg hc] at h
      cases hb : parseClassBody (c :: t) with
      | none => rw [hb] at h; cases h
      | some pr =>
        rw [hb] at h
        injection h with h'
        have : rest = pr.2 := (congrArg (fun q => q.2.2) h').symm
        subst this
        exact parseClassBody_length (c :: t) pr.1 pr.2 (by rw [hb])

theorem gmatchF_congr :
    ∀ (f1 : Nat) (ps s : List Char) (f2 : Nat),
      ps.length + s.length < f1 → ps.length + s.length < f2 →
      gmatchF f1 ps s = gmatchF f2 ps s := by
  intro f1
  induction f1 with
  | zero => intro ps s f2 h1 _; exact absurd h1 (Nat.not_lt_zero _)
  | succ f ih =>
    intro ps s f2 h1 h2
    cases f2 with
    | zero => exact absurd h2 (Nat.not_lt_zero _)
    | succ g =>
      cases ps with
      | nil => simp [gmatchF]
      | cons p pt =>
        simp only [List.length_cons] at h1 h2
        simp only [gmatchF]
        by_cases hstar : p = '*'
        · rw [if_pos hstar, if_pos hstar]
          cases s with
          | nil =>
            show gmatchF f pt [] = gmatchF g pt []
            exact ih pt [] g (by simp; omega) (by simp; omega)
          | cons c cs =>
            simp only [List.length_cons] at h1 h2
            show (gmatchF f pt (c :: cs) || gmatchF f (p :: pt) cs)
                = (gmatchF g pt (c :: cs) || gmatchF g (p :: pt) cs)
            rw [ih pt (c :: cs) g (by simp; omega) (by simp; omega),
              ih (p :: pt) cs g (by simp; omega) (by simp; omega)]
        · rw [if_neg hstar, if_neg hstar]
          by_cases hq : p = '?'
          · rw [if_pos hq, if_pos hq]
            cases s with
            | nil => rfl
            | cons c cs =>
              simp only [List.length_cons] at h1 h2
              show gmatchF f pt cs = gmatchF g pt cs
              exact ih pt cs g (by omega) (by omega)
          · rw [if_neg hq, if_neg hq]
            by_cases hb : p = '['
            · rw [if_pos hb, if_pos hb]
              cases s with
              | nil => rfl
              | cons c cs =>
                simp only [List.length_cons] at h1 h2
                cases hpc : parseClass pt with
                | none =>
                  show (c == '[' && gmatchF f pt cs)
                      = (c == '[' && gmatchF g pt cs)
                  rw [ih pt cs g (by omega) (by omega)]
                | some r =>
                  rcases r with ⟨neg, body, rest⟩
                  have hr : rest.length < pt.length :=
                    parseClass_length pt neg body rest hpc
                  show ((classMatch c body != neg) && gmatchF f rest cs)
                      = ((classMatch c body != neg) && gmatchF g rest cs)
                  rw [ih rest cs g (by omega) (by omega)]
            · rw [if_neg hb, if_neg hb]
              cases s with
              | nil => rfl
              | cons c cs =>
                simp only [List.length_cons] at h1 h2
                show (p == c && gmatchF f pt cs) = (p == c && gmatchF g pt cs)
                rw [ih pt cs g (by omega) (by omega)]

/-- `gmatch` computes the unbounded glob recursion: any fuel above the
natural bound gives the same result. -/
theorem gmatchF_eq_gmatch (fuel : Nat) (ps s : List Char)
    (h : ps.length + s.length < fuel) : gmatchF fuel ps s = gmatch ps s :=
  gmatchF_congr fuel ps s (ps.length + s.length + 1) h (by omega)

/-- `observer.py`: `WILDCARDS = frozenset("[]!*?")`. -/
def WILDCARDS : List Char := ['[', ']', '!', '*', '?']

/-- `frozenset(prop_name) & WILDCARDS` is nonempty: the name is treated as
a pattern. -/
def hasWildcard (s : String) : Bool := s.data.any (fun c => c ∈ WILDCARDS)

/-! ## Observer (`observer.py`, class `Observer`)

The five private maps set up in `Observer.__init__` become the fields of a
record; methods are compared by (`__func__`, `__self__`) identity like
Python bound methods, so the method type `μ` is an abstract type with
decidable equality.  `kwargs` dictionaries are stored opaquely. -/

/-- The registration state of an `Observer` instance: the five private
maps of `Observer.__init__`. -/
structure Observer (μ : Type) where
  /-- `__PROP_TO_METHS`: prop name → set of observing methods. -/
  prop_to_meths : List (String × List μ)
  /-- `__METH_TO_PROPS`: method → set of observed (exact) properties. -/
  meth_to_props : List (μ × List String)
  /-- `__PAT_TO_METHS`: like `__PROP_TO_METHS`, for pattern names only. -/
  pat_to_meths : List (String × List μ)
  /-- `__METH_TO_PAT`: method → its single pattern. -/
  meth_to_pat : List (μ × String)
  /-- `__PAT_METH_TO_KWARGS`: (name or pattern, method) → kwargs. -/
  pat_meth_to_kwargs : List ((String × μ) × Dict)
  deriving DecidableEq, Repr

/-- A fresh `Observer` with no registrations (the state right after the
five maps are initialised to `{}`). -/
def newObserver (μ : Type) : Observer μ :=
  ⟨[], [], [], [], []⟩

/-- `set` values stored in a map, defaulting to the empty set. -/
def getMeths {μ : Type} [DecidableEq μ]
    (d : List (String × List μ)) (k : String) : List μ :=
  (lookupD d k).getD []

/-- `__METH_TO_PROPS` read, defaulting to the empty set. -/
def getProps {μ : Type} [DecidableEq μ]
    (d : List (μ × List String)) (m : μ) : List String :=
  (lookupD d m).getD []

/-- `d.setdefault(k, set()); d[k].add(v)` on a name → set-of-methods map. -/
def addToMethSet {μ : Type} [DecidableEq μ]
    (d : List (String × List μ)) (k : String) (v : μ) :
    List (String × List μ) :=
  setD d k (insertSet (getMeths d k) v)

/-- `d.setdefault(m, set()); d[m].add(p)` on `__METH_TO_PROPS`. -/
def addToPropSet {μ : Type} [DecidableEq μ]
    (d : List (μ × List String)) (m : μ) (p : String) :
    List (μ × List String) :=
  setD d m (insertSet (getProps d m) p)

/-- The outcome of a mutating call: `err` is the exception raised (if
any), `state` is the observer state when the call returned or raised.
Every `raise` in `__register_notification` occurs before any mutation,
which the theorems below make explicit. -/
structure RegOut (μ : Type) where
  err : Option PyErr
  state : Observer μ
  deriving DecidableEq, Repr

/-- `Observer.__register_notification(self, prop_name, method, kwargs)`:
associates `prop_name` with `method` and `(prop_name, method)` with
`kwargs`, raising `ValueError` on a duplicate `(prop_name, method)` pair,
on a second pattern for a method, or on mixing a pattern with exact
names for the same method. -/
def register_notification {μ : Type} [DecidableEq μ]
    (s : Observer μ) (prop_name : String) (method : μ) (kwargs : Dict) :
    RegOut μ :=
  let key := (prop_name, method)
  if (lookupD s.pat_meth_to_kwargs key).isSome then
    ⟨some PyErr.valueError, s⟩
  else if hasWildcard prop_name then
    if (lookupD s.meth_to_pat method).isSome ∨ getProps s.meth_to_props method ≠ [] then
      ⟨some PyErr.valueError, s⟩
    else
      let s1 : Observer μ :=
        { s with meth_to_pat := setD s.meth_to_pat method prop_name }
      let s2 : Observer μ :=
        { s1 with pat_to_meths := addToMethSet s1.pat_to_meths prop_name method }
      ⟨Option.none,
       { s2 with pat_meth_to_kwargs := setD s2.pat_meth_to_kwargs key kwargs }⟩
  else
    if (lookupD s.meth_to_pat method).isSome then
      ⟨some PyErr.valueError, s⟩
    else
      let s1 : Observer μ :=
        { s with meth_to_props := addToPropSet s.meth_to_props method prop_name }
      let s2 : Observer μ :=
        { s1 with prop_to_meths := addToMethSet s1.prop_to_meths prop_name method }
      ⟨Option.none,
       { s2 with pat_meth_to_kwargs := setD s2.pat_meth_to_kwargs key kwargs }⟩

/-- A sequence of dynamic `observe` registrations, as performed by
`Observer.observe(self, method, name, **kwargs)`; the first raised
exception aborts the sequence. -/
def registerList {μ : Type} [DecidableEq μ]
    (s : Observer μ) : List (String × μ × Dict) → RegOut μ
  | [] => ⟨Option.none, s⟩
  | (n, m, kw) :: rest =>
    match register_notification s n m kw with
    | ⟨some e, st⟩ => ⟨some e, st⟩
    | ⟨Option.none, st⟩ => registerList st rest

/-- `Observer.get_observing_methods(self, prop_name)`: the union of the
sets stored under every pattern matching `prop_name`, together with the
set stored under `prop_name` itself. -/
def get_observing_methods {μ : Type} [DecidableEq μ]
    (s : Observer μ) (prop_name : String) : List μ :=
  setUnion
    ((s.pat_to_meths.filter (fun e => fnmatch prop_name e.1)).foldl
      (fun acc e => setUnion acc e.2) [])
    (getMeths s.prop_to_meths prop_name)

/-! ## Registration-trace predicates

A *trace* is the list of `(name, method, kwargs)` triples passed to
`__register_notification` so far.  The claims speak of "what has been
registered", which these predicates express. -/

/-- An exact (non-wildcard) registration of `(p, m)` occurs in the trace. -/
def ExactIn {μ : Type} (regs : List (String × μ × Dict))
    (p : String) (m : μ) : Prop :=
  hasWildcard p = false ∧ ∃ kw, (p, m, kw) ∈ regs

/-- A pattern (wildcard) registration of `(pat, m)` occurs in the trace. -/
def PatIn {μ : Type} (regs : List (String × μ × Dict))
    (pat : String) (m : μ) : Prop :=
  hasWildcard pat = true ∧ ∃ kw, (pat, m, kw) ∈ regs

/-- Some registration of `(p, m)` occurs in the trace. -/
def AnyIn {μ : Type} (regs : List (String × μ × Dict))
    (p : String) (m : μ) : Prop :=
  ∃ kw, (p, m, kw) ∈ regs

theorem anyIn_append {μ : Type} (regs : List (String × μ × Dict))
    (n : String) (m0 : μ) (kw : Dict) (p : String) (m : μ) :
    AnyIn (regs ++ [(n, m0, kw)]) p m ↔ AnyIn regs p m ∨ (p = n ∧ m = m0) := by
  unfold AnyIn
  constructor
  · rintro ⟨kw', hk⟩
    rcases List.mem_append.mp hk with h | h
    · exact Or.inl ⟨kw', h⟩
    · rcases List.mem_singleton.mp h with h'
      refine Or.inr ?_
      have h1 : p = n := congrArg Prod.fst h'
      have h2 : m = m0 := congrArg (fun q => q.2.1) h'
      exact ⟨h1, h2⟩
  · rintro (⟨kw', hk⟩ | ⟨rfl, rfl⟩)
    · exact ⟨kw', List.mem_append.mpr (Or.inl hk)⟩
    · exact ⟨kw, List.mem_append.mpr (Or.inr (List.mem_singleton.mpr rfl))⟩

theorem exactIn_append {μ : Type} (regs : List (String × μ × Dict))
    (n : String) (m0 : μ) (kw : Dict) (p : String) (m : μ) :
    ExactIn (regs ++ [(n, m0, kw)]) p m ↔
      ExactIn regs p m ∨ (p = n ∧ m = m0 ∧ hasWildcard n = false) := by
  unfold ExactIn
  rw [show (∃ kw', (p, m, kw') ∈ regs ++ [(n, m0, kw)]) ↔ _ from anyIn_append regs n m0 kw p m]
  constructor
  · rintro ⟨hw, h | ⟨rfl, rfl⟩⟩
    · exact Or.inl ⟨hw, h⟩
    · exact Or.inr ⟨rfl, rfl, hw⟩
  · rintro (⟨hw, h⟩ | ⟨rfl, rfl, hw⟩)
    · exact ⟨hw, Or.inl h⟩
    · exact ⟨hw, Or.inr ⟨rfl, rfl⟩⟩

theorem patIn_append {μ : Type} (regs : List (String × μ × Dict))
    (n : String) (m0 : μ) (kw : Dict) (p : String) (m : μ) :
    PatIn (regs ++ [(n, m0, kw)]) p m ↔
      PatIn regs p m ∨ (p = n ∧ m = m0 ∧ hasWildcard n = true) := by
  unfold PatIn
  rw [show (∃ kw', (p, m, kw') ∈ regs ++ [(n, m0, kw)]) ↔ _ from anyIn_append regs n m0 kw p m]
  constructor
  · rintro ⟨hw, h | ⟨rfl, rfl⟩⟩
    · exact Or.inl ⟨hw, h⟩
    · exact Or.inr ⟨rfl, rfl, hw⟩
  · rintro (⟨hw, h⟩ | ⟨rfl, rfl, hw⟩)
    · exact ⟨hw, Or.inl h⟩
    · exact ⟨hw, Or.inr ⟨rfl, rfl⟩⟩

theorem getMeths_addToMethSet {μ : Type} [DecidableEq μ]
    (d : List (String × List μ)) (k : String) (v : μ) (p : String) :
    getMeths (addToMethSet d k v) p =
      if p = k then insertSet (getMeths d k) v else getMeths d p := by
  by_cases h : p = k
  · subst h; simp [getMeths, addToMethSet, lookupD_setD_self]
  · simp [getMeths, addToMethSet, lookupD_setD_ne _ _ _ _ h, h]

theorem getProps_addToPropSet {μ : Type} [DecidableEq μ]
    (d : List (μ × List String)) (m0 : μ) (p : String) (m : μ) :
    getProps (addToPropSet d m0 p) m =
      if m = m0 then insertSet (getProps d m0) p else getProps d m := by
  by_cases h : m = m0
  · subst h; simp [getProps, addToPropSet, lookupD_setD_self]
  · simp [getProps, addToPropSet, lookupD_setD_ne _ _ _ _ h, h]

/-! ### Characterizing `__register_notification` outcomes -/

/-- The duplicate-key check: a second registration of the same
`(prop_name, method)` raises `ValueError` before any map changes. -/
theorem register_dup_key {μ : Type} [DecidableEq μ]
    (s : Observer μ) (n : String) (m : μ) (kw : Dict)
    (hkey : (lookupD s.pat_meth_to_kwargs (n, m)).isSome = true) :
    register_notification s n m kw = ⟨some PyErr.valueError, s⟩ := by
  simp [register_notification, hkey]

/-- A successful wildcard registration: all guards were false and exactly
the three pattern-side maps changed. -/
theorem register_ok_wild {μ : Type} [DecidableEq μ]
    (s s' : Observer μ) (n : String) (m : μ) (kw : Dict)
    (hw : hasWildcard n = true)
    (h : register_notification s n m kw = ⟨Option.none, s'⟩) :
    (lookupD s.pat_meth_to_kwargs (n, m)).isSome = false ∧
    lookupD s.meth_to_pat m = Option.none ∧
    getProps s.meth_to_props m = [] ∧
    s' = { s with
           meth_to_pat := setD s.meth_to_pat m n,
           pat_to_meths := addToMethSet s.pat_to_meths n m,
           pat_meth_to_kwargs := setD s.pat_meth_to_kwargs (n, m) kw } := by
  by_cases hkey : (lookupD s.pat_meth_to_kwargs (n, m)).isSome
  · simp [register_notification, hkey] at h
  · by_cases hguard : (lookupD s.meth_to_pat m).isSome ∨ getProps s.meth_to_props m ≠ []
    · simp [register_notification, hkey, hw, hguard] at h
    · push_neg at hguard
      obtain ⟨hg1, hg2⟩ := hguard
      refine ⟨by simpa using hkey, ?_, hg2, ?_⟩
      · cases hl : lookupD s.meth_to_pat m with
        | none => rfl
        | some pat => rw [hl] at hg1; simp at hg1
      · have := h
        simp only [register_notification, hkey, hw] at this
        simp only [hg1, hg2, Option.isSome_none, Bool.false_eq_true, false_or,
          if_false, if_true, ne_eq, not_true_eq_false, or_self] at this
        injection this with h1 h2
        exact h2.symm

/-- A successful exact-name registration: all guards were false and exactly
the three exact-side maps changed. -/
theorem register_ok_exact {μ : Type} [DecidableEq μ]
    (s s' : Observer μ) (n : String) (m : μ) (kw : Dict)
    (hw : hasWildcard n = false)
    (h : register_notification s n m kw = ⟨Option.none, s'⟩) :
    (lookupD s.pat_meth_to_kwargs (n, m)).isSome = false ∧
    lookupD s.meth_to_pat m = Option.none ∧
    s' = { s with
           meth_to_props := addToPropSet s.meth_to_props m n,
           prop_to_meths := addToMethSet s.prop_to_meths n m,
           pat_meth_to_kwargs := setD s.pat_meth_to_kwargs (n, m) kw } := by
  by_cases hkey : (lookupD s.pat_meth_to_kwargs (n, m)).isSome
  · simp [register_notification, hkey] at h
  · by_cases hg1 : (lookupD s.meth_to_pat m).isSome
    · simp [register_notification, hkey, hw, hg1] at h
    · refine ⟨by simpa using hkey, ?_, ?_⟩
      · cases hl : lookupD s.meth_to_pat m with
        | none => rfl
        | some pat => rw [hl] at hg1; simp at hg1
      · have := h
        simp only [register_notification, hkey, hw] at this
        simp only [hg1, if_false, if_true, Bool.false_eq_true] at this
        injection this with h1 h2
        exact h2.symm

/-! ### The trace invariant

Relates every private map of an `Observer` to the trace of successful
`__register_notification` calls that produced it. -/

/-- The five maps of an observer state agree with the trace `regs` of
successful registrations. -/
structure TraceInv {μ : Type} [DecidableEq μ]
    (regs : List (String × μ × Dict)) (s : Observer μ) : Prop where
  prop_meths : ∀ p m, m ∈ getMeths s.prop_to_meths p ↔ ExactIn regs p m
  pat_meths : ∀ p m, m ∈ getMeths s.pat_to_meths p ↔ PatIn regs p m
  meth_pat : ∀ m pat, lookupD s.meth_to_pat m = some pat ↔ PatIn regs pat m
  meth_props : ∀ m p, p ∈ getProps s.meth_to_props m ↔ ExactIn regs p m
  kwkeys : ∀ p m,
    (lookupD s.pat_meth_to_kwargs (p, m)).isSome = true ↔ AnyIn regs p m

theorem traceInv_nil {μ : Type} [DecidableEq μ] :
    TraceInv ([] : List (String × μ × Dict)) (newObserver μ) := by
  constructor <;>
    simp [newObserver, getMeths, getProps, lookupD, ExactIn, PatIn, AnyIn]

theorem traceInv_step {μ : Type} [DecidableEq μ]
    (regs : List (String × μ × Dict)) (s s' : Observer μ)
    (n : String) (m : μ) (kw : Dict)
    (inv : TraceInv regs s)
    (h : register_notification s n m kw = ⟨Option.none, s'⟩) :
    TraceInv (regs ++ [(n, m, kw)]) s' := by
  by_cases hw : hasWildcard n = true
  · obtain ⟨hkey, hg1, hg2, hs'⟩ := register_ok_wild s s' n m kw hw h
    subst hs'
    constructor
    · -- prop_to_meths unchanged; the new entry is a pattern
      intro p m'
      rw [exactIn_append]
      simp only []
      rw [inv.prop_meths p m']
      constructor
      · exact Or.inl
      · rintro (h' | ⟨rfl, rfl, hww⟩)
        · exact h'
        · rw [hw] at hww; cases hww
    · -- pat_to_meths gains m under key n
      intro p m'
      rw [patIn_append]
      simp only [getMeths_addToMethSet]
      by_cases hp : p = n
      · subst hp
        rw [if_pos rfl, mem_insertSet, inv.pat_meths p m']
        constructor
        · rintro (h' | rfl)
          · exact Or.inl h'
          · exact Or.inr ⟨rfl, rfl, hw⟩
        · rintro (h' | ⟨_, rfl, _⟩)
          · exact Or.inl h'
          · exact Or.inr rfl
      · rw [if_neg hp, inv.pat_meths p m']
        constructor
        · exact Or.inl
        · rintro (h' | ⟨hpn, _, _⟩)
          · exact h'
          · exact absurd hpn hp
    · -- meth_to_pat gains m ↦ n
      intro m' pat
      rw [patIn_append]
      simp only []
      by_cases hm : m' = m
      · subst hm
        rw [lookupD_setD_self]
        constructor
        · intro h'
          injection h' with h''
          exact Or.inr ⟨h''.symm, rfl, hw⟩
        · rintro (h' | ⟨rfl, _, _⟩)
          · exact absurd ((inv.meth_pat m' pat).mpr h') (by simp [hg1])
          · rfl
      · rw [lookupD_setD_ne _ _ _ _ hm, inv.meth_pat m' pat]
        constructor
        · exact Or.inl
        · rintro (h' | ⟨_, hmm, _⟩)
          · exact h'
          · exact absurd hmm hm
    · -- meth_to_props unchanged; the new entry is a pattern
      intro m' p
      rw [exactIn_append]
      simp only []
      rw [inv.meth_props m' p]
      constructor
      · exact Or.inl
      · rintro (h' | ⟨rfl, rfl, hww⟩)
        · exact h'
        · rw [hw] at hww; cases hww
    · -- kwargs map gains key (n, m)
      intro p m'
      rw [anyIn_append]
      simp only []
      by_cases hk : (p, m') = ((n, m) : String × μ)
      · rw [hk, lookupD_setD_self]
        have h1 : p = n := congrArg Prod.fst hk
        have h2 : m' = m := congrArg Prod.snd hk
        simp [h1, h2]
      · rw [lookupD_setD_ne _ _ _ _ hk, inv.kwkeys p m']
        constructor
        · exact Or.inl
        · rintro (h' | ⟨rfl, rfl⟩)
          · exact h'
          · exact absurd rfl hk
  · have hw' : hasWildcard n = false := by
      cases hww : hasWildcard n
      · rfl
      · exact absurd hww hw
    obtain ⟨hkey, hg1, hs'⟩ := register_ok_exact s s' n m kw hw' h
    subst hs'
    constructor
    · -- prop_to_meths gains m under key n
      intro p m'
      rw [exactIn_append]
      simp only [getMeths_addToMethSet]
      by_cases hp : p = n
      · subst hp
        rw [if_pos rfl, mem_insertSet, inv.prop_meths p m']
        constructor
        · rintro (h' | rfl)
          · exact Or.inl h'
          · exact Or.inr ⟨rfl, rfl, hw'⟩
        · rintro (h' | ⟨_, rfl, _⟩)
          · exact Or.inl h'
          · exact Or.inr rfl
      · rw [if_neg hp, inv.prop_meths p m']
        constructor
        · exact Or.inl
        · rintro (h' | ⟨hpn, _, _⟩)
          · exact h'
          · exact absurd hpn hp
    · -- pat_to_meths unchanged; the new entry is exact
      intro p m'
      rw [patIn_append]
      simp only []
      rw [inv.pat_meths p m']
      constructor
      · exact Or.inl
      · rintro (h' | ⟨rfl, rfl, hww⟩)
        · exact h'
        · rw [hw'] at hww; cases hww
    · -- meth_to_pat unchanged
      intro m' pat
      rw [patIn_append]
      simp only []
      rw [inv.meth_pat m' pat]
      constructor
      · exact Or.inl
      · rintro (h' | ⟨rfl, _, hww⟩)
        · exact h'
        · rw [hw'] at hww; cases hww
    · -- meth_to_props gains n under key m
      intro m' p
      rw [exactIn_append]
      simp only [getProps_addToPropSet]
      by_cases hm : m' = m
      · subst hm
        rw [if_pos rfl, mem_insertSet, inv.meth_props m' p]
        constructor
        · rintro (h' | rfl)
          · exact Or.inl h'
          · exact Or.inr ⟨rfl, rfl, hw'⟩
        · rintro (h' | ⟨rfl, _, _⟩)
          · exact Or.inl h'
          · exact Or.inr rfl
      · rw [if_neg (by simpa using hm), inv.meth_props m' p]
        constructor
        · exact Or.inl
        · rintro (h' | ⟨_, hmm, _⟩)
          · exact h'
          · exact absurd hmm hm
    · -- kwargs map gains key (n, m)
      intro p m'
      rw [anyIn_append]
      simp only []
      by_cases hk : (p, m') = ((n, m) : String × μ)
      · rw [hk, lookupD_setD_self]
        have h1 : p = n := congrArg Prod.fst hk
        have h2 : m' = m := congrArg Prod.snd hk
        simp [h1, h2]
      · rw [lookupD_setD_ne _ _ _ _ hk, inv.kwkeys p m']
        constructor
        · exact Or.inl
        · rintro (h' | ⟨rfl, rfl⟩)
          · exact h'
          · exact absurd rfl hk

/-! ### Key uniqueness and lookup/membership lemmas -/

theorem mem_keysD_setD {α β : Type} [DecidableEq α]
    (d : List (α × β)) (k a : α) (v : β) :
    a ∈ keysD (setD d k v) ↔ a ∈ keysD d ∨ a = k := by
  induction d with
  | nil => simp [setD, keysD]
  | cons p t ih =>
    by_cases hp : p.1 = k
    · subst hp
      simp [setD, keysD]
      tauto
    · simp only [setD, hp, if_false, keysD, List.map_cons, List.mem_cons]
      rw [show List.map Prod.fst (setD t k v) = keysD (setD t k v) from rfl,
        ih]
      rw [show List.map Prod.fst t = keysD t from rfl]
      tauto

theorem nodupKeys_setD {α β : Type} [DecidableEq α]
    (d : List (α × β)) (k : α) (v : β) (h : NodupKeys d) :
    NodupKeys (setD d k v) := by
  induction d with
  | nil => simp [setD, NodupKeys, keysD]
  | cons p t ih =>
    unfold NodupKeys keysD at h
    simp only [List.map_cons, List.nodup_cons] at h
    by_cases hp : p.1 = k
    · subst hp
      unfold NodupKeys keysD
      simp only [setD]
      rw [if_pos trivial]
      simp only [List.map_cons, List.nodup_cons]
      exact ⟨h.1, h.2⟩
    · unfold NodupKeys keysD
      simp only [setD, hp, if_false, List.map_cons, List.nodup_cons]
      constructor
      · intro hmem
        rcases (mem_keysD_setD t k p.1 v).mp (by simpa [keysD] using hmem) with h' | h'
        · exact h.1 (by simpa [keysD] using h')
        · exact hp h'
      · exact ih h.2

theorem lookupD_eq_some_mem {α β : Type} [DecidableEq α]
    (d : List (α × β)) (k : α) (v : β) (h : lookupD d k = some v) :
    (k, v) ∈ d := by
  induction d with
  | nil => simp [lookupD] at h
  | cons p t ih =>
    by_cases hp : p.1 = k
    · rw [lookupD, if_pos hp] at h
      injection h with h'
      have hpv : p = (k, v) := by
        cases p
        simp only [Prod.mk.injEq]
        exact ⟨hp, h'⟩
      rw [← hpv]
      exact List.mem_cons_self p t
    · rw [lookupD, if_neg hp] at h
      exact List.mem_cons.mpr (Or.inr (ih h))

theorem mem_lookupD_of_nodupKeys {α β : Type} [DecidableEq α]
    (d : List (α × β)) (k : α) (v : β) (hnd : NodupKeys d)
    (h : (k, v) ∈ d) : lookupD d k = some v := by
  induction d with
  | nil => simp at h
  | cons p t ih =>
    unfold NodupKeys keysD at hnd
    simp only [List.map_cons, List.nodup_cons] at hnd
    rcases List.mem_cons.mp h with h' | h'
    · subst h'
      simp [lookupD]
    · have hp : ¬ p.1 = k := by
        intro hpk
        exact hnd.1 (by
          subst hpk
          exact List.mem_map.mpr ⟨(p.1, v), h', rfl⟩)
      rw [lookupD, if_neg hp]
      exact ih hnd.2 h'

/-- A successful registration leaves `__PAT_TO_METHS` with duplicate-free
keys (it changes by at most one `setD`). -/
theorem register_nodup_pat {μ : Type} [DecidableEq μ]
    (s s' : Observer μ) (n : String) (m : μ) (kw : Dict)
    (h : register_notification s n m kw = ⟨Option.none, s'⟩)
    (wf : NodupKeys s.pat_to_meths) : NodupKeys s'.pat_to_meths := by
  by_cases hw : hasWildcard n = true
  · obtain ⟨_, _, _, hs'⟩ := register_ok_wild s s' n m kw hw h
    subst hs'
    exact nodupKeys_setD _ _ _ wf
  · have hw' : hasWildcard n = false := by
      cases hww : hasWildcard n
      · rfl
      · exact absurd hww hw
    obtain ⟨_, _, hs'⟩ := register_ok_exact s s' n m kw hw' h
    subst hs'
    exact wf

/-- Pushing `TraceInv` and key-uniqueness through a whole successful
sequence of registrations. -/
theorem registerList_inv {μ : Type} [DecidableEq μ] :
    ∀ (regs regs0 : List (String × μ × Dict)) (s s' : Observer μ),
      TraceInv regs0 s → NodupKeys s.pat_to_meths →
      registerList s regs = ⟨Option.none, s'⟩ →
      TraceInv (regs0 ++ regs) s' ∧ NodupKeys s'.pat_to_meths
  | [], regs0, s, s', inv, wf, h => by
    simp only [registerList] at h
    injection h with _ h2
    subst h2
    simpa using And.intro inv wf
  | (n, m, kw) :: rest, regs0, s, s', inv, wf, h => by
    simp only [registerList] at h
    rcases hr : register_notification s n m kw with ⟨err, st⟩
    rw [hr] at h
    cases err with
    | some e => simp at h
    | none =>
      simp only [] at h
      have step := traceInv_step regs0 s st n m kw inv hr
      have wf' := register_nodup_pat s st n m kw hr wf
      have := registerList_inv rest (regs0 ++ [(n, m, kw)]) st s' step wf' h
      rwa [List.append_assoc, List.singleton_append] at this

/-! ### Membership in `get_observing_methods` -/

theorem mem_foldl_setUnion {μ : Type} [DecidableEq μ]
    (l : List (String × List μ)) (a : μ) :
    ∀ init : List μ,
      a ∈ l.foldl (fun acc e => setUnion acc e.2) init ↔
        a ∈ init ∨ ∃ e ∈ l, a ∈ e.2 := by
  induction l with
  | nil => intro init; simp
  | cons c t ih =>
    intro init
    simp only [List.foldl_cons]
    rw [ih (setUnion init c.2), mem_setUnion]
    simp only [List.mem_cons]
    constructor
    · rintro ((h | h) | ⟨e, he, ha⟩)
      · exact Or.inl h
      · exact Or.inr ⟨c, Or.inl rfl, h⟩
      · exact Or.inr ⟨e, Or.inr he, ha⟩
    · rintro (h | ⟨e, (rfl | he), ha⟩)
      · exact Or.inl (Or.inl h)
      · exact Or.inl (Or.inr ha)
      · exact Or.inr ⟨e, he, ha⟩

/-- Unfolded membership in `get_observing_methods`: a method is returned
exactly when some stored pattern entry matches, or the exact map has it. -/
theorem mem_get_observing_methods {μ : Type} [DecidableEq μ]
    (s : Observer μ) (p : String) (m : μ) :
    m ∈ get_observing_methods s p ↔
      (∃ e ∈ s.pat_to_meths, fnmatch p e.1 = true ∧ m ∈ e.2) ∨
        m ∈ getMeths s.prop_to_meths p := by
  unfold get_observing_methods
  rw [mem_setUnion, mem_foldl_setUnion]
  simp only [List.mem_filter, List.not_mem_nil, false_or]
  constructor
  · rintro (⟨e, ⟨he, hf⟩, ha⟩ | h)
    · exact Or.inl ⟨e, he, hf, ha⟩
    · exact Or.inr h
  · rintro (⟨e, he, hf, ha⟩ | h)
    · exact Or.inl ⟨e, ⟨he, hf⟩, ha⟩
    · exact Or.inr h

/-! ### Lemmas about the flag-deletion loop of `NTInfo.__init__` -/

theorem lookupD_foldl_delD_not_mem (t k : String) :
    ∀ (l : List String) (d : Dict), k ∉ l →
      lookupD (l.foldl (fun acc flag => if flag = t then acc else delD acc flag) d) k
        = lookupD d k := by
  intro l
  induction l with
  | nil => intro d _; rfl
  | cons f fs ih =>
    intro d hk
    have hkf : k ≠ f := fun h => hk (h ▸ List.mem_cons_self f fs)
    have hkfs : k ∉ fs := fun h => hk (List.mem_cons_of_mem f h)
    simp only [List.foldl_cons]
    rw [ih _ hkfs]
    by_cases hf : f = t
    · rw [if_pos hf]
    · rw [if_neg hf, lookupD_delD, if_neg hkf]

theorem lookupD_foldl_delD_self (t : String) :
    ∀ (l : List String) (d : Dict),
      lookupD (l.foldl (fun acc flag => if flag = t then acc else delD acc flag) d) t
        = lookupD d t := by
  intro l
  induction l with
  | nil => intro d; rfl
  | cons f fs ih =>
    intro d
    simp only [List.foldl_cons]
    rw [ih]
    by_cases hf : f = t
    · rw [if_pos hf]
    · rw [if_neg hf, lookupD_delD, if_neg (fun h => hf h.symm)]

theorem lookupD_foldl_delD_none (t k : String) :
    ∀ (l : List String) (d : Dict), lookupD d k = Option.none →
      lookupD (l.foldl (fun acc flag => if flag = t then acc else delD acc flag) d) k
        = Option.none := by
  intro l
  induction l with
  | nil => intro d h; exact h
  | cons f fs ih =>
    intro d h
    simp only [List.foldl_cons]
    by_cases hf : f = t
    · rw [if_pos hf]; exact ih _ h
    · rw [if_neg hf]
      refine ih _ ?_
      rw [lookupD_delD]
      by_cases hk : k = f
      · rw [if_pos hk]
      · rw [if_neg hk]; exact h

theorem lookupD_foldl_delD_mem (t k : String) (hkt : k ≠ t) :
    ∀ (l : List String) (d : Dict), k ∈ l →
      lookupD (l.foldl (fun acc flag => if flag = t then acc else delD acc flag) d) k
        = Option.none := by
  intro l
  induction l with
  | nil => intro d h; simp at h
  | cons f fs ih =>
    intro d hk
    simp only [List.foldl_cons]
    rcases List.mem_cons.mp hk with rfl | hmem
    · rw [if_neg hkt]
      exact lookupD_foldl_delD_none t k fs _ (by rw [lookupD_delD, if_pos rfl])
    · by_cases hf : f = t
      · rw [if_pos hf]; exact ih _ hmem
      · rw [if_neg hf]; exact ih _ hmem

/-! ## Claim C3 -/

/-- C3: `NTInfo(_type, ...)` raises `KeyError` exactly when the key named
by `_type` is absent from the given mapping or maps to a falsy value, and
every successfully constructed `NTInfo` contains the keys `model` and
`prop_name`. -/
theorem C3_ntinfo_flag_and_required_keys (t : String) (d : Dict) :
    (NTInfo_init t d = Except.error PyErr.keyError ↔
      ¬ ∃ v, lookupD d t = some v ∧ truthy v = true) ∧
    (∀ n, NTInfo_init t d = Except.ok n →
      (lookupD n "model").isSome = true ∧ (lookupD n "prop_name").isSome = true) := by
  constructor
  · unfold NTInfo_init
    split
    next heq => simp [heq]
    next v heq =>
      split
      next hv => simp [heq, hv]
      next hv =>
        have hv' : truthy v = true := by
          cases hvv : truthy v
          · exact absurd hvv hv
          · rfl
        split
        next => simp [heq, hv']
        next => simp [heq, hv']
  · intro n h
    unfold NTInfo_init at h
    split at h
    · cases h
    next v heq =>
      split at h
      · cases h
      next hv =>
        split at h
        · cases h
        next ha =>
          have ha' : ALL_REQUESTED.all (fun k => (lookupD d k).isSome) = true := by
            cases haa : ALL_REQUESTED.all (fun k => (lookupD d k).isSome)
            · exact absurd haa ha
            · rfl
          have hmodel : (lookupD d "model").isSome = true := by
            simp only [ALL_REQUESTED, List.all_cons, List.all_nil,
              Bool.and_true, Bool.and_eq_true] at ha'
            exact ha'.1
          have hprop : (lookupD d "prop_name").isSome = true := by
            simp only [ALL_REQUESTED, List.all_cons, List.all_nil,
              Bool.and_true, Bool.and_eq_true] at ha'
            exact ha'.2
          injection h with h'
          subst h'
          constructor
          · rw [lookupD_foldl_delD_not_mem t "model" ONE_REQUESTED d (by decide)]
            exact hmodel
          · rw [lookupD_foldl_delD_not_mem t "prop_name" ONE_REQUESTED d (by decide)]
            exact hprop

/-- Concrete framework-style input used to instantiate C3. -/
def dC3 : Dict :=
  [("assign", PyVal.bool true), ("model", PyVal.obj 0),
   ("prop_name", PyVal.str "x")]

/-- Witness for C3 at a concrete constructor call. -/
theorem C3_witness :
    ((lookupD dC3 "model").isSome = true ∧
      (lookupD dC3 "prop_name").isSome = true) ∧
    ¬ (NTInfo_init "assign" dC3 = Except.error PyErr.keyError) :=
  ⟨(C3_ntinfo_flag_and_required_keys "assign" dC3).2 dC3 rfl,
   fun h => (C3_ntinfo_flag_and_required_keys "assign" dC3).1.mp h
     ⟨PyVal.bool true, rfl, rfl⟩⟩

/-! ## Claim C8 -/

/-- C8 counterexample: constructing with a `_type` outside the four kind
flags succeeds (here `_type = "foo"`), yet deletes every one of the four
flags, so the result contains none of them — not exactly one. -/
theorem C8_counterexample :
    NTInfo_init "foo"
        [("foo", PyVal.int 1), ("assign", PyVal.bool true),
         ("model", PyVal.obj 0), ("prop_name", PyVal.str "p")]
      = Except.ok
        [("foo", PyVal.int 1), ("model", PyVal.obj 0),
         ("prop_name", PyVal.str "p")] ∧
    lookupD
        [(("foo" : String), PyVal.int 1), ("model", PyVal.obj 0),
         ("prop_name", PyVal.str "p")] "assign" = Option.none ∧
    lookupD
        [(("foo" : String), PyVal.int 1), ("model", PyVal.obj 0),
         ("prop_name", PyVal.str "p")] "before" = Option.none ∧
    lookupD
        [(("foo" : String), PyVal.int 1), ("model", PyVal.obj 0),
         ("prop_name", PyVal.str "p")] "after" = Option.none ∧
    lookupD
        [(("foo" : String), PyVal.int 1), ("model", PyVal.obj 0),
         ("prop_name", PyVal.str "p")] "signal" = Option.none :=
  ⟨rfl, rfl, rfl, rfl, rfl⟩

/-- C8 (amended): when `_type` is one of the four kind flags, the
constructed mapping holds `_type` truthy and none of the other three
flags, even if the caller supplied them. -/
theorem C8_exactly_one_flag (t : String) (d : Dict) (n : Dict)
    (ht : t ∈ ONE_REQUESTED) (h : NTInfo_init t d = Except.ok n) :
    (∃ v, lookupD n t = some v ∧ truthy v = true) ∧
    ∀ f ∈ ONE_REQUESTED, f ≠ t → lookupD n f = Option.none := by
  unfold NTInfo_init at h
  split at h
  · cases h
  next v heq =>
    split at h
    · cases h
    next hv =>
      have hv' : truthy v = true := by
        cases hvv : truthy v
        · exact absurd hvv hv
        · rfl
      split at h
      · cases h
      next =>
        injection h with h'
        subst h'
        constructor
        · exact ⟨v, by rw [lookupD_foldl_delD_self t ONE_REQUESTED d]; exact heq, hv'⟩
        · intro f hf hft
          exact lookupD_foldl_delD_mem t f hft ONE_REQUESTED d hf

/-- Witness for C8 at a concrete constructor call: a caller-supplied
`before` flag is removed when `_type = "assign"`. -/
theorem C8_witness :
    (∃ v, lookupD
        [(("assign" : String), PyVal.bool true), ("model", PyVal.obj 0),
         ("prop_name", PyVal.str "p")] "assign" = some v ∧ truthy v = true) ∧
    ∀ f ∈ ONE_REQUESTED, f ≠ "assign" →
      lookupD
        [(("assign" : String), PyVal.bool true), ("model", PyVal.obj 0),
         ("prop_name", PyVal.str "p")] f = Option.none :=
  C8_exactly_one_flag "assign"
    [("assign", PyVal.bool true), ("before", PyVal.bool true),
     ("model", PyVal.obj 0), ("prop_name", PyVal.str "p")]
    _ (by decide) rfl

/-! ## Claim C5 -/

/-- Concrete C5 input: an `NTInfo` whose mapping contains the key
`"keys"`, which is also a `dict` method name. -/
def dC5 : Dict :=
  [("assign", PyVal.bool true), ("model", PyVal.obj 0),
   ("prop_name", PyVal.str "p"), ("keys", PyVal.int 42)]

/-- C5 counterexample: `"keys"` is a key of this constructed `NTInfo`, but
attribute access finds the `dict.keys` method on the type first, so
`n.keys` does not return `n["keys"]`. -/
theorem C5_counterexample :
    NTInfo_init "assign" dC5 = Except.ok dC5 ∧
    lookupD dC5 "keys" = some (PyVal.int 42) ∧
    NTInfo_getattribute dC5 "keys" = Except.ok (AttrVal.fromType "keys") :=
  ⟨rfl, rfl, rfl⟩

/-- C5 (amended): for a name that is not an attribute of the type,
attribute access returns the dictionary entry when the name is a key and
raises `AttributeError` otherwise. -/
theorem C5_attribute_access (n : Dict) (k : String)
    (hk : k ∉ ntinfoTypeAttrs) :
    (∀ v, lookupD n k = some v →
      NTInfo_getattribute n k = Except.ok (AttrVal.fromDict v)) ∧
    (lookupD n k = Option.none →
      NTInfo_getattribute n k = Except.error PyErr.attributeError) := by
  constructor
  · intro v hv
    simp [NTInfo_getattribute, NTInfo_getattr_hook, hk, hv]
  · intro hv
    simp [NTInfo_getattribute, NTInfo_getattr_hook, hk, hv]

/-- Witness for C5 at concrete lookups. -/
theorem C5_witness :
    NTInfo_getattribute [("x", PyVal.int 1)] "x"
      = Except.ok (AttrVal.fromDict (PyVal.int 1)) ∧
    NTInfo_getattribute [("x", PyVal.int 1)] "y"
      = Except.error PyErr.attributeError :=
  ⟨(C5_attribute_access [("x", PyVal.int 1)] "x" (by decide)).1
      (PyVal.int 1) rfl,
   (C5_attribute_access [("x", PyVal.int 1)] "y" (by decide)).2 rfl⟩

/-! ## Claim C6 -/

/-- Concrete C6 input: a framework-shaped `NTInfo`. -/
def dC6 : Dict :=
  [("assign", PyVal.bool true), ("model", PyVal.obj 0),
   ("prop_name", PyVal.str "p")]

/-- C6 counterexample: `NTInfo` inherits `dict.__setitem__`, a public
operation that adds an entry to a constructed notification object, so the
object is not read-only. -/
theorem C6_counterexample :
    NTInfo_init "assign" dC6 = Except.ok dC6 ∧
    dict_setitem dC6 "extra" (PyVal.int 7) ≠ dC6 ∧
    lookupD (dict_setitem dC6 "extra" (PyVal.int 7)) "extra"
      = some (PyVal.int 7) ∧
    lookupD dC6 "extra" = Option.none :=
  ⟨rfl, by decide, rfl, rfl⟩

/-- C6 (amended): a constructed notification object is mutable through the
inherited `dict` interface — `__setitem__` makes the given key map to the
given value and leaves every other key unchanged; the operations `NTInfo`
itself adds are reads only. -/
theorem C6_setitem_mutates (t : String) (d n : Dict)
    (h : NTInfo_init t d = Except.ok n) (k : String) (v : PyVal) :
    lookupD (dict_setitem n k v) k = some v ∧
    ∀ k', k' ≠ k → lookupD (dict_setitem n k v) k' = lookupD n k' := by
  constructor
  · exact lookupD_setD_self n k v
  · intro k' hk'
    exact lookupD_setD_ne n k k' v hk'

/-- Witness for C6 at a concrete mutation. -/
theorem C6_witness :
    lookupD (dict_setitem dC6 "extra" (PyVal.int 7)) "extra"
      = some (PyVal.int 7) ∧
    ∀ k', k' ≠ "extra" →
      lookupD (dict_setitem dC6 "extra" (PyVal.int 7)) k' = lookupD dC6 k' :=
  C6_setitem_mutates "assign" dC6 dC6 rfl "extra" (PyVal.int 7)

/-! ## Claim C1 -/

/-- C1: after any successful sequence of registrations,
`get_observing_methods(p)` returns exactly the union of the methods
registered under the exact (non-wildcard) name `p` and the methods
registered under any wildcard pattern `pat` with `fnmatch(p, pat)`;
in particular it is empty when no registration matches. -/
theorem C1_get_observing_methods_spec {μ : Type} [DecidableEq μ]
    (regs : List (String × μ × Dict)) (s : Observer μ)
    (h : registerList (newObserver μ) regs = ⟨Option.none, s⟩)
    (p : String) (m : μ) :
    m ∈ get_observing_methods s p ↔
      (ExactIn regs p m ∨ ∃ pat, PatIn regs pat m ∧ fnmatch p pat = true) := by
  obtain ⟨inv, wf⟩ := registerList_inv regs [] (newObserver μ) s traceInv_nil
    (by simp [newObserver, NodupKeys, keysD]) h
  rw [List.nil_append] at inv
  rw [mem_get_observing_methods]
  constructor
  · rintro (⟨e, he, hf, hm⟩ | hm)
    · refine Or.inr ⟨e.1, ?_, hf⟩
      have hl : lookupD s.pat_to_meths e.1 = some e.2 :=
        mem_lookupD_of_nodupKeys _ _ _ wf (by rcases e with ⟨a, b⟩; exact he)
      exact (inv.pat_meths e.1 m).mp (by rw [getMeths, hl]; exact hm)
    · exact Or.inl ((inv.prop_meths p m).mp hm)
  · rintro (hm | ⟨pat, hpat, hf⟩)
    · exact Or.inr ((inv.prop_meths p m).mpr hm)
    · have hmem : m ∈ getMeths s.pat_to_meths pat := (inv.pat_meths pat m).mpr hpat
      cases hl : lookupD s.pat_to_meths pat with
      | none => rw [getMeths, hl] at hmem; cases hmem
      | some meths =>
        rw [getMeths, hl] at hmem
        exact Or.inl ⟨(pat, meths), lookupD_eq_some_mem _ _ _ hl, hf, hmem⟩

/-! ## Claim C9 -/

/-- C9: re-registering an already registered `(prop_name, method)` pair —
exact or pattern — raises `ValueError`, and the observer's maps are
unchanged (the returned state is the state before the call). -/
theorem C9_duplicate_pair_raises {μ : Type} [DecidableEq μ]
    (regs : List (String × μ × Dict)) (s : Observer μ)
    (h : registerList (newObserver μ) regs = ⟨Option.none, s⟩)
    (p : String) (m : μ) (kw : Dict) (hmem : AnyIn regs p m) :
    register_notification s p m kw = ⟨some PyErr.valueError, s⟩ := by
  obtain ⟨inv, _⟩ := registerList_inv regs [] (newObserver μ) s traceInv_nil
    (by simp [newObserver, NodupKeys, keysD]) h
  rw [List.nil_append] at inv
  exact register_dup_key s p m kw ((inv.kwkeys p m).mpr hmem)

/-! ## Claim C2 -/

/-- C2: registering a wildcard name for a method that already has any
registration (pattern or exact) raises `ValueError`, and registering an
exact name for a method that already has a pattern registration raises
`ValueError`; the state is returned unchanged. -/
theorem C2_pattern_conflicts_raise {μ : Type} [DecidableEq μ]
    (regs : List (String × μ × Dict)) (s : Observer μ)
    (h : registerList (newObserver μ) regs = ⟨Option.none, s⟩)
    (name p' : String) (m : μ) (kw : Dict) :
    (hasWildcard name = true → AnyIn regs p' m →
      register_notification s name m kw = ⟨some PyErr.valueError, s⟩) ∧
    (hasWildcard name = false → (∃ pat, PatIn regs pat m) →
      register_notification s name m kw = ⟨some PyErr.valueError, s⟩) := by
  obtain ⟨inv, _⟩ := registerList_inv regs [] (newObserver μ) s traceInv_nil
    (by simp [newObserver, NodupKeys, keysD]) h
  rw [List.nil_append] at inv
  constructor
  · intro hw hprev
    by_cases hkey : (lookupD s.pat_meth_to_kwargs (name, m)).isSome = true
    · exact register_dup_key s name m kw hkey
    · have hguard : (lookupD s.meth_to_pat m).isSome = true ∨
          getProps s.meth_to_props m ≠ [] := by
        obtain ⟨kw', hk⟩ := hprev
        cases hwp : hasWildcard p' with
        | true =>
          left
          have : lookupD s.meth_to_pat m = some p' :=
            (inv.meth_pat m p').mpr ⟨hwp, kw', hk⟩
          rw [this]; rfl
        | false =>
          right
          intro hnil
          have : p' ∈ getProps s.meth_to_props m :=
            (inv.meth_props m p').mpr ⟨hwp, kw', hk⟩
          rw [hnil] at this
          cases this
      simp only [register_notification, hkey, if_false, hw, if_true,
        Bool.false_eq_true]
      rw [if_pos (by
        rcases hguard with hg | hg
        · exact Or.inl (by simpa using hg)
        · exact Or.inr hg)]
  · intro hw hprev
    by_cases hkey : (lookupD s.pat_meth_to_kwargs (name, m)).isSome = true
    · exact register_dup_key s name m kw hkey
    · obtain ⟨pat, hpat⟩ := hprev
      have hmp : lookupD s.meth_to_pat m = some pat := (inv.meth_pat m pat).mpr hpat
      simp only [register_notification, hkey, if_false, hw, Bool.false_eq_true]
      rw [if_pos (by rw [hmp]; rfl)]

/-! ## Claim C7 -/

/-- C7 (amended): in every reachable observer state, each notification
method has at most one registered wildcard pattern — two pattern
registrations for the same method coincide — and a property mutation
matched by that pattern is dispatched to the method. -/
theorem C7_one_pattern_per_method {μ : Type} [DecidableEq μ]
    (regs : List (String × μ × Dict)) (s : Observer μ)
    (h : registerList (newObserver μ) regs = ⟨Option.none, s⟩)
    (pat1 pat2 : String) (m : μ) (p : String)
    (h1 : PatIn regs pat1 m) (h2 : PatIn regs pat2 m) :
    pat1 = pat2 ∧ (fnmatch p pat1 = true → m ∈ get_observing_methods s p) := by
  obtain ⟨inv, wf⟩ := registerList_inv regs [] (newObserver μ) s traceInv_nil
    (by simp [newObserver, NodupKeys, keysD]) h
  rw [List.nil_append] at inv
  have e1 : lookupD s.meth_to_pat m = some pat1 := (inv.meth_pat m pat1).mpr h1
  have e2 : lookupD s.meth_to_pat m = some pat2 := (inv.meth_pat m pat2).mpr h2
  have hpp : pat1 = pat2 := by
    have := e1.symm.trans e2
    injection this
  refine ⟨hpp, fun hf => ?_⟩
  rw [mem_get_observing_methods]
  have hmem : m ∈ getMeths s.pat_to_meths pat1 := (inv.pat_meths pat1 m).mpr h1
  cases hl : lookupD s.pat_to_meths pat1 with
  | none => rw [getMeths, hl] at hmem; cases hmem
  | some meths =>
    rw [getMeths, hl] at hmem
    exact Or.inl ⟨(pat1, meths), lookupD_eq_some_mem _ _ _ hl, hf, hmem⟩

/-- Concrete observer state reached by registering `"value"` for method 0
and the pattern `"pat*"` for method 1. -/
def obsC1 : Observer Nat :=
  ⟨[("value", [0])], [(0, ["value"])], [("pat*", [1])], [(1, "pat*")],
   [(("value", 0), []), (("pat*", 1), [])]⟩

/-- Witness for C1 at a concrete registration sequence and query. -/
theorem C1_witness :
    registerList (newObserver Nat) [("value", 0, []), ("pat*", 1, [])]
      = ⟨Option.none, obsC1⟩ ∧
    (1 ∈ get_observing_methods obsC1 "pattern" ↔
      (ExactIn [("value", 0, []), ("pat*", 1, [])] "pattern" 1 ∨
        ∃ pat, PatIn [("value", 0, []), ("pat*", 1, [])] pat 1 ∧
          fnmatch "pattern" pat = true)) :=
  ⟨by decide, C1_get_observing_methods_spec [("value", 0, []), ("pat*", 1, [])]
      obsC1 (by decide) "pattern" 1⟩

/-- Concrete observer state with one exact registration of `"p"`. -/
def obsC9 : Observer Nat :=
  ⟨[("p", [0])], [(0, ["p"])], [], [], [(("p", 0), [])]⟩

/-- Witness for C9 at a concrete duplicate registration. -/
theorem C9_witness :
    register_notification obsC9 "p" 0 [] = ⟨some PyErr.valueError, obsC9⟩ :=
  C9_duplicate_pair_raises [("p", 0, [])] obsC9 (by decide) "p" 0 []
    ⟨[], by simp⟩

/-- Concrete observer state with one exact registration of `"a"`. -/
def obsC2a : Observer Nat :=
  ⟨[("a", [0])], [(0, ["a"])], [], [], [(("a", 0), [])]⟩

/-- Concrete observer state with one pattern registration of `"c*"`. -/
def obsC2b : Observer Nat :=
  ⟨[], [], [("c*", [0])], [(0, "c*")], [(("c*", 0), [])]⟩

/-- Witness for C2: a wildcard after an exact registration raises, and an
exact name after a pattern registration raises. -/
theorem C2_witness :
    register_notification obsC2a "b*" 0 [] = ⟨some PyErr.valueError, obsC2a⟩ ∧
    register_notification obsC2b "c" 0 [] = ⟨some PyErr.valueError, obsC2b⟩ :=
  ⟨(C2_pattern_conflicts_raise [("a", 0, [])] obsC2a (by decide) "b*" "a" 0 []).1
      rfl ⟨[], by simp⟩,
   (C2_pattern_conflicts_raise [("c*", 0, [])] obsC2b (by decide) "c" "c*" 0 []).2
      rfl ⟨"c*", rfl, [], by simp⟩⟩

/-- Concrete observer state reached by registering the pattern `"a*"` for
two different methods. -/
def obsC7 : Observer Nat :=
  ⟨[], [], [("a*", [0, 1])], [(0, "a*"), (1, "a*")],
   [(("a*", 0), []), (("a*", 1), [])]⟩

/-- C7 counterexample: two different methods successfully register the
same wildcard pattern `"a*"`; the pattern is then associated with two
methods, and a mutation of a matched property is dispatched to both
handlers, not to a single one. -/
theorem C7_counterexample :
    registerList (newObserver Nat) [("a*", 0, []), ("a*", 1, [])]
      = ⟨Option.none, obsC7⟩ ∧
    getMeths obsC7.pat_to_meths "a*" = [0, 1] ∧
    get_observing_methods obsC7 "ab" = [0, 1] := by
  refine ⟨by decide, by decide, by decide⟩

/-- Concrete observer state with one pattern registration of `"b*"`. -/
def obsC7w : Observer Nat :=
  ⟨[], [], [("b*", [0])], [(0, "b*")], [(("b*", 0), [])]⟩

/-- Witness for the amended C7 at a concrete pattern registration. -/
theorem C7_witness :
    ("b*" : String) = "b*" ∧
    (fnmatch "bc" "b*" = true → 0 ∈ get_observing_methods obsC7w "bc") :=
  C7_one_pattern_per_method [("b*", 0, [])] obsC7w (by decide) "b*" "b*" 0 "bc"
    ⟨rfl, [], by simp⟩ ⟨rfl, [], by simp⟩

/-! ## Static registration at instantiation (`Observer.__init__` scan)

`Observer.__init__` walks `inspect.getmro(type(self))` from the most
derived class down, collects the methods of each class `__dict__` carrying
the `_CUST_OBS_` decoration list, and registers `getattr(self, name)` —
the most derived override, bound to the instance — for every declared
property name not yet processed by a more derived class.

A class `__dict__` is embedded as the ordered list of its function
entries: the method name together with its decoration list (`none` for an
undecorated function).  A bound method `getattr(self, name)` is identified
by the method name paired with the index in the MRO of the first class
defining that name — Python bound methods compare equal exactly when
`__func__` and `__self__` agree. -/

/-- A single `observe` declaration attached to a method: the property name
or pattern, with its keyword arguments. -/
abbrev ObsDecl := String × Dict

/-- One entry of a class `__dict__`: a function name and, when decorated,
its `_CUST_OBS_` list. -/
abbrev MethodDef := String × Option (List ObsDecl)

/-- A class `__dict__`, in definition order. -/
abbrev ClsDict := List MethodDef

/-- A bound method of the instance: the attribute name and the MRO index
of the class whose `__dict__` provides the resolved function. -/
abbrev BoundMeth := String × Nat

/-- Does a class `__dict__` define the attribute `mname`? -/
def definesB (cls : ClsDict) (mname : String) : Bool :=
  cls.any (fun md => md.1 == mname)

/-- The index of the first list element satisfying `f`, if any. -/
def findIdxD {α : Type} (f : α → Bool) : List α → Option Nat
  | [] => Option.none
  | a :: t => if f a then some 0 else (findIdxD f t).map (· + 1)

/-- `getattr(self, mname)` resolution: the first class of the MRO whose
`__dict__` defines `mname`. -/
def resolveIdx (mro : List ClsDict) (mname : String) : Option Nat :=
  findIdxD (fun cls => definesB cls mname) mro

/-- The bound method the instance sees for `mname` (the most derived
override). -/
def boundMeth (mro : List ClsDict) (mname : String) : BoundMeth :=
  (mname, (resolveIdx mro mname).getD 0)

/-- The inner loop over one decorated method's declaration list: names
already processed by a more derived class are skipped, the rest are
registered for the bound method; a raised exception aborts instantiation.
Returns the updated state and the accumulated `cls_processed_props`. -/
def regDecls (mro : List ClsDict) (mname : String) (processed : List String) :
    List ObsDecl → Observer BoundMeth → List String →
      Option (Observer BoundMeth × List String)
  | [], s, clsProc => some (s, clsProc)
  | (pname, ka) :: rest, s, clsProc =>
    if pname ∈ processed then regDecls mro mname processed rest s clsProc
    else
      match register_notification s pname (boundMeth mro mname) ka with
      | ⟨some _, _⟩ => Option.none
      | ⟨Option.none, s'⟩ =>
        regDecls mro mname processed rest s' (insertSet clsProc pname)

/-- The loop over one class `__dict__`: undecorated functions are skipped,
decorated ones contribute their declaration lists. -/
def regMeths (mro : List ClsDict) (processed : List String) :
    List MethodDef → Observer BoundMeth → List String →
      Option (Observer BoundMeth × List String)
  | [], s, clsProc => some (s, clsProc)
  | (_, Option.none) :: rest, s, clsProc => regMeths mro processed rest s clsProc
  | (mname, some decls) :: rest, s, clsProc =>
    match regDecls mro mname processed decls s clsProc with
    | Option.none => Option.none
    | some (s', clsProc') => regMeths mro processed rest s' clsProc'

/-- The outer loop over the MRO: after each class, the names it processed
are merged into `processed_props`. -/
def scanClasses (mro : List ClsDict) :
    List ClsDict → List String → Observer BoundMeth →
      Option (Observer BoundMeth)
  | [], _, s => some s
  | cls :: rest, processed, s =>
    match regMeths mro processed cls s [] with
    | Option.none => Option.none
    | some (s', clsProc) => scanClasses mro rest (setUnion processed clsProc) s'

/-- The whole static-registration scan of `Observer.__init__`, starting
from empty maps and an empty `processed_props` set. -/
def observerInitScan (mro : List ClsDict) : Option (Observer BoundMeth) :=
  scanClasses mro mro [] (newObserver BoundMeth)

/-- Does some decorated method of the class declare property name `p`? -/
def declaresB (cls : ClsDict) (p : String) : Bool :=
  cls.any (fun md =>
    match md.2 with
    | some decls => decls.any (fun d => d.1 == p)
    | Option.none => false)

/-- The most derived class of the MRO declaring `p`, if any. -/
def firstDeclIdx (mro : List ClsDict) (p : String) : Option Nat :=
  findIdxD (fun cls => declaresB cls p) mro

/-- The property `(p, m)` is registered from the most derived declaring
class: the first class of the MRO declaring `p` contains a decorated
method declaring `p`, and `m` is that method's instance-bound (most
derived) resolution. -/
def FromTopDecl (mro : List ClsDict) (p : String) (m : BoundMeth) : Prop :=
  ∃ i cls, firstDeclIdx mro p = some i ∧ mro[i]? = some cls ∧
    ∃ mname decls kw, (mname, some decls) ∈ cls ∧ (p, kw) ∈ decls ∧
      m = boundMeth mro mname

/-! ### Lemmas for the instantiation scan -/

/-- A successful registration adds exactly the new `(name, method)` key to
`__PAT_METH_TO_KWARGS`. -/
theorem register_ok_keys {μ : Type} [DecidableEq μ]
    (s s' : Observer μ) (n : String) (m : μ) (kw : Dict)
    (h : register_notification s n m kw = ⟨Option.none, s'⟩)
    (p' : String) (m' : μ)
    (hk : (lookupD s'.pat_meth_to_kwargs (p', m')).isSome = true) :
    (p' = n ∧ m' = m) ∨
      (lookupD s.pat_meth_to_kwargs (p', m')).isSome = true := by
  by_cases hp : (p', m') = ((n, m) : String × μ)
  · exact Or.inl ⟨congrArg Prod.fst hp, congrArg Prod.snd hp⟩
  · refine Or.inr ?_
    by_cases hw : hasWildcard n = true
    · obtain ⟨_, _, _, hs'⟩ := register_ok_wild s s' n m kw hw h
      subst hs'
      rwa [lookupD_setD_ne _ _ _ _ hp] at hk
    · have hw' : hasWildcard n = false := by
        cases hww : hasWildcard n
        · rfl
        · exact absurd hww hw
      obtain ⟨_, _, hs'⟩ := register_ok_exact s s' n m kw hw' h
      subst hs'
      rwa [lookupD_setD_ne _ _ _ _ hp] at hk

theorem findIdxD_of_first {α : Type} (f : α → Bool) :
    ∀ (l : List α) (i : Nat) (a : α), l[i]? = some a → f a = true →
      (∀ j b, j < i → l[j]? = some b → f b = false) →
      findIdxD f l = some i := by
  intro l
  induction l with
  | nil => intro i a ha _ _; simp at ha
  | cons c t ih =>
    intro i a ha hf hj
    cases i with
    | zero =>
      simp only [List.getElem?_cons_zero] at ha
      injection ha with ha'
      subst ha'
      simp [findIdxD, hf]
    | succ i' =>
      have hc : f c = false :=
        hj 0 c (Nat.succ_pos i') (by simp)
      simp only [findIdxD, hc, Bool.false_eq_true, if_false]
      have ht : findIdxD f t = some i' := by
        refine ih i' a (by simpa using ha) hf ?_
        intro j b hjb hb
        exact hj (j + 1) b (Nat.succ_lt_succ hjb) (by simpa using hb)
      rw [ht]
      rfl

theorem declaresB_of_mem (cls : ClsDict) (mname : String)
    (decls : List ObsDecl) (p : String) (kw : Dict)
    (hm : (mname, some decls) ∈ cls) (hd : (p, kw) ∈ decls) :
    declaresB cls p = true := by
  unfold declaresB
  rw [List.any_eq_true]
  refine ⟨(mname, some decls), hm, ?_⟩
  simp only []
  rw [List.any_eq_true]
  exact ⟨(p, kw), hd, by simp⟩

theorem mem_of_declaresB (cls : ClsDict) (p : String)
    (h : declaresB cls p = true) :
    ∃ mname decls kw, (mname, some decls) ∈ cls ∧ (p, kw) ∈ decls := by
  unfold declaresB at h
  rw [List.any_eq_true] at h
  obtain ⟨md, hmd, hmatch⟩ := h
  rcases md with ⟨mname, odecls⟩
  cases odecls with
  | none => simp at hmatch
  | some decls =>
    simp only [List.any_eq_true] at hmatch
    obtain ⟨d, hd, hdp⟩ := hmatch
    rcases d with ⟨dp, dkw⟩
    have : dp = p := by simpa using hdp
    subst this
    exact ⟨mname, decls, dkw, hmd, hd⟩

/-- Soundness of the inner declaration loop: every new kwargs key comes
from the most derived declaring class with the bound method, and every
declared-and-unprocessed name ends up in `cls_processed_props`. -/
theorem regDecls_spec (mro : List ClsDict) (mname : String)
    (processed : List String) (idx : Nat) (cls : ClsDict)
    (decls0 : List ObsDecl)
    (hcls : mro[idx]? = some cls)
    (hm : (mname, some decls0) ∈ cls)
    (hproc : ∀ j c p, j < idx → mro[j]? = some c →
      declaresB c p = true → p ∈ processed) :
    ∀ (ds : List ObsDecl) (s : Observer BoundMeth) (clsProc : List String)
      (s' : Observer BoundMeth) (clsProc' : List String),
      (∀ d ∈ ds, d ∈ decls0) →
      (∀ p m, (lookupD s.pat_meth_to_kwargs (p, m)).isSome = true →
        FromTopDecl mro p m) →
      regDecls mro mname processed ds s clsProc = some (s', clsProc') →
      (∀ p m, (lookupD s'.pat_meth_to_kwargs (p, m)).isSome = true →
        FromTopDecl mro p m) ∧
      (∀ p, (p ∈ clsProc ∨ (∃ kw, (p, kw) ∈ ds ∧ p ∉ processed)) →
        p ∈ clsProc') := by
  intro ds
  induction ds with
  | nil =>
    intro s clsProc s' clsProc' _ hsound h
    simp only [regDecls] at h
    injection h with h'
    injection h' with h1 h2
    subst h1; subst h2
    refine ⟨hsound, ?_⟩
    rintro p (hp | ⟨kw, hkw, _⟩)
    · exact hp
    · simp at hkw
  | cons d rest ih =>
    rcases d with ⟨pname, ka⟩
    intro s clsProc s' clsProc' hsub hsound h
    simp only [regDecls] at h
    by_cases hskip : pname ∈ processed
    · rw [if_pos hskip] at h
      obtain ⟨hsound', hcov⟩ := ih s clsProc s' clsProc'
        (fun d hd => hsub d (List.mem_cons_of_mem _ hd)) hsound h
      refine ⟨hsound', ?_⟩
      rintro p (hp | ⟨kw, hkw, hnp⟩)
      · exact hcov p (Or.inl hp)
      · rcases List.mem_cons.mp hkw with heq | hmem
        · have : p = pname := congrArg Prod.fst heq
          subst this
          exact absurd hskip hnp
        · exact hcov p (Or.inr ⟨kw, hmem, hnp⟩)
    · rw [if_neg hskip] at h
      rcases hr : register_notification s pname (boundMeth mro mname) ka
        with ⟨err, s1⟩
      rw [hr] at h
      cases err with
      | some e => simp at h
      | none =>
        simp only [] at h
        have hd0 : (pname, ka) ∈ decls0 := hsub _ (List.mem_cons_self _ _)
        have hdecl : declaresB cls pname = true :=
          declaresB_of_mem cls mname decls0 pname ka hm hd0
        have hfirst : firstDeclIdx mro pname = some idx := by
          refine findIdxD_of_first _ mro idx cls hcls hdecl ?_
          intro j b hjb hb
          cases hdb : declaresB b pname with
          | false => rfl
          | true => exact absurd (hproc j b pname hjb hb hdb) hskip
        have hnew : FromTopDecl mro pname (boundMeth mro mname) :=
          ⟨idx, cls, hfirst, hcls, mname, decls0, ka, hm, hd0, rfl⟩
        have hsound1 : ∀ p m,
            (lookupD s1.pat_meth_to_kwargs (p, m)).isSome = true →
            FromTopDecl mro p m := by
          intro p m hk
          rcases register_ok_keys s s1 pname (boundMeth mro mname) ka hr p m hk
            with ⟨rfl, rfl⟩ | hold
          · exact hnew
          · exact hsound p m hold
        obtain ⟨hsound', hcov⟩ := ih s1 (insertSet clsProc pname) s' clsProc'
          (fun d hd => hsub d (List.mem_cons_of_mem _ hd)) hsound1 h
        refine ⟨hsound', ?_⟩
        rintro p (hp | ⟨kw, hkw, hnp⟩)
        · exact hcov p (Or.inl ((mem_insertSet _ _ _).mpr (Or.inl hp)))
        · rcases List.mem_cons.mp hkw with heq | hmem
          · have : p = pname := congrArg Prod.fst heq
            subst this
            exact hcov p (Or.inl ((mem_insertSet _ _ _).mpr (Or.inr rfl)))
          · exact hcov p (Or.inr ⟨kw, hmem, hnp⟩)

/-- Soundness of the per-class method loop. -/
theorem regMeths_spec (mro : List ClsDict) (processed : List String)
    (idx : Nat) (cls : ClsDict)
    (hcls : mro[idx]? = some cls)
    (hproc : ∀ j c p, j < idx → mro[j]? = some c →
      declaresB c p = true → p ∈ processed) :
    ∀ (mds : List MethodDef) (s : Observer BoundMeth)
      (clsProc : List String) (s' : Observer BoundMeth)
      (clsProc' : List String),
      (∀ md ∈ mds, md ∈ cls) →
      (∀ p m, (lookupD s.pat_meth_to_kwargs (p, m)).isSome = true →
        FromTopDecl mro p m) →
      regMeths mro processed mds s clsProc = some (s', clsProc') →
      (∀ p m, (lookupD s'.pat_meth_to_kwargs (p, m)).isSome = true →
        FromTopDecl mro p m) ∧
      (∀ p, (p ∈ clsProc ∨
          (∃ mname decls kw, (mname, some decls) ∈ mds ∧ (p, kw) ∈ decls ∧
            p ∉ processed)) →
        p ∈ clsProc') := by
  intro mds
  induction mds with
  | nil =>
    intro s clsProc s' clsProc' _ hsound h
    simp only [regMeths] at h
    injection h with h'
    injection h' with h1 h2
    subst h1; subst h2
    refine ⟨hsound, ?_⟩
    rintro p (hp | ⟨mname, decls, kw, hmd, _, _⟩)
    · exact hp
    · simp at hmd
  | cons md rest ih =>
    rcases md with ⟨mname2, odecls⟩
    intro s clsProc s' clsProc' hsub hsound h
    cases odecls with
    | none =>
      simp only [regMeths] at h
      obtain ⟨hsound', hcov⟩ := ih s clsProc s' clsProc'
        (fun md hmd => hsub md (List.mem_cons_of_mem _ hmd)) hsound h
      refine ⟨hsound', ?_⟩
      rintro p (hp | ⟨mname, decls, kw, hmd, hkw, hnp⟩)
      · exact hcov p (Or.inl hp)
      · rcases List.mem_cons.mp hmd with heq | hmem
        · exact absurd (congrArg Prod.snd heq) (by simp)
        · exact hcov p (Or.inr ⟨mname, decls, kw, hmem, hkw, hnp⟩)
    | some decls2 =>
      simp only [regMeths] at h
      rcases hr : regDecls mro mname2 processed decls2 s clsProc
        with _ | ⟨s1, cp1⟩
      · rw [hr] at h; simp at h
      · rw [hr] at h
        simp only [] at h
        have hm2 : (mname2, some decls2) ∈ cls := hsub _ (List.mem_cons_self _ _)
        obtain ⟨hsound1, hcov1⟩ := regDecls_spec mro mname2 processed idx cls
          decls2 hcls hm2 hproc decls2 s clsProc s1 cp1
          (fun d hd => hd) hsound hr
        obtain ⟨hsound', hcov⟩ := ih s1 cp1 s' clsProc'
          (fun md hmd => hsub md (List.mem_cons_of_mem _ hmd)) hsound1 h
        refine ⟨hsound', ?_⟩
        rintro p (hp | ⟨mname, decls, kw, hmd, hkw, hnp⟩)
        · exact hcov p (Or.inl (hcov1 p (Or.inl hp)))
        · rcases List.mem_cons.mp hmd with heq | hmem
          · have he1 : mname = mname2 := congrArg Prod.fst heq
            have he2 : some decls = some decls2 := congrArg Prod.snd heq
            injection he2 with he2'
            subst he2'
            exact hcov p (Or.inl (hcov1 p (Or.inr ⟨kw, hkw, hnp⟩)))
          · exact hcov p (Or.inr ⟨mname, decls, kw, hmem, hkw, hnp⟩)

/-- Soundness of the MRO loop of `Observer.__init__`. -/
theorem scanClasses_spec (mro : List ClsDict) :
    ∀ (rest : List ClsDict) (idx : Nat) (processed : List String)
      (s s' : Observer BoundMeth),
      (∀ j, rest[j]? = mro[idx + j]?) →
      (∀ j c p, j < idx → mro[j]? = some c →
        declaresB c p = true → p ∈ processed) →
      (∀ p m, (lookupD s.pat_meth_to_kwargs (p, m)).isSome = true →
        FromTopDecl mro p m) →
      scanClasses mro rest processed s = some s' →
      (∀ p m, (lookupD s'.pat_meth_to_kwargs (p, m)).isSome = true →
        FromTopDecl mro p m) := by
  intro rest
  induction rest with
  | nil =>
    intro idx processed s s' _ _ hsound h
    simp only [scanClasses] at h
    injection h with h'
    subst h'
    exact hsound
  | cons cls rest' ih =>
    intro idx processed s s' hidx hproc hsound h
    have hcls : mro[idx]? = some cls := by
      have := hidx 0
      simpa using this.symm
    simp only [scanClasses] at h
    rcases hr : regMeths mro processed cls s [] with _ | ⟨s1, clsProc⟩
    · rw [hr] at h; simp at h
    · rw [hr] at h
      simp only [] at h
      obtain ⟨hsound1, hcov⟩ := regMeths_spec mro processed idx cls hcls hproc
        cls s [] s1 clsProc (fun md hmd => hmd) hsound hr
      refine ih (idx + 1) (setUnion processed clsProc) s1 s' ?_ ?_ hsound1 h
      · intro j
        have := hidx (j + 1)
        simpa [Nat.add_assoc, Nat.add_comm 1 j] using this
      · intro j c p hj hc hd
        rcases Nat.lt_succ_iff_lt_or_eq.mp hj with hlt | heq
        · exact (mem_setUnion _ _ _).mpr (Or.inl (hproc j c p hlt hc hd))
        · subst heq
          have hcc : c = cls := Option.some.inj (hc.symm.trans hcls)
          subst hcc
          by_cases hp : p ∈ processed
          · exact (mem_setUnion _ _ _).mpr (Or.inl hp)
          · obtain ⟨mname, decls, kw, hmd, hkw⟩ := mem_of_declaresB c p hd
            exact (mem_setUnion _ _ _).mpr
              (Or.inr (hcov p (Or.inr ⟨mname, decls, kw, hmd, hkw, hp⟩)))

/-! ### Scan states are dynamically reachable

Instantiation performs plain `__register_notification` calls, so every
state the scan can produce is also produced by a sequence of dynamic
`observe` registrations; the reachability hypotheses of the registration
theorems therefore cover the static (decorator) path as well. -/

/-- A state reached from a fresh observer by some successful sequence of
registrations. -/
def Reachable {μ : Type} [DecidableEq μ] (s : Observer μ) : Prop :=
  ∃ regs, registerList (newObserver μ) regs = ⟨Option.none, s⟩

theorem registerList_snoc {μ : Type} [DecidableEq μ] :
    ∀ (regs : List (String × μ × Dict)) (s0 s s' : Observer μ)
      (n : String) (m : μ) (kw : Dict),
      registerList s0 regs = ⟨Option.none, s⟩ →
      register_notification s n m kw = ⟨Option.none, s'⟩ →
      registerList s0 (regs ++ [(n, m, kw)]) = ⟨Option.none, s'⟩
  | [], s0, s, s', n, m, kw, h0, h1 => by
    simp only [registerList] at h0
    injection h0 with _ h2
    subst h2
    simp only [List.nil_append, registerList]
    rw [h1]
  | (n0, m0, kw0) :: rest, s0, s, s', n, m, kw, h0, h1 => by
    simp only [registerList] at h0
    rcases hr : register_notification s0 n0 m0 kw0 with ⟨err, st⟩
    rw [hr] at h0
    cases err with
    | some e => simp at h0
    | none =>
      simp only [] at h0
      simp only [List.cons_append, registerList]
      rw [hr]
      simp only []
      exact registerList_snoc rest st s s' n m kw h0 h1

theorem reachable_register {μ : Type} [DecidableEq μ]
    (s s' : Observer μ) (n : String) (m : μ) (kw : Dict)
    (h : Reachable s)
    (hr : register_notification s n m kw = ⟨Option.none, s'⟩) :
    Reachable s' := by
  obtain ⟨regs, hregs⟩ := h
  exact ⟨regs ++ [(n, m, kw)],
    registerList_snoc regs (newObserver μ) s s' n m kw hregs hr⟩

theorem regDecls_reachable (mro : List ClsDict) (mname : String)
    (processed : List String) :
    ∀ (ds : List ObsDecl) (s : Observer BoundMeth) (clsProc : List String)
      (out : Observer BoundMeth × List String),
      Reachable s →
      regDecls mro mname processed ds s clsProc = some out →
      Reachable out.1 := by
  intro ds
  induction ds with
  | nil =>
    intro s clsProc out hs h
    simp only [regDecls] at h
    injection h with h'
    rw [← h']
    exact hs
  | cons d rest ih =>
    rcases d with ⟨pname, ka⟩
    intro s clsProc out hs h
    simp only [regDecls] at h
    by_cases hskip : pname ∈ processed
    · rw [if_pos hskip] at h
      exact ih s clsProc out hs h
    · rw [if_neg hskip] at h
      rcases hr : register_notification s pname (boundMeth mro mname) ka
        with ⟨err, s1⟩
      rw [hr] at h
      cases err with
      | some e => simp at h
      | none =>
        simp only [] at h
        exact ih s1 (insertSet clsProc pname)
          out (reachable_register s s1 _ _ _ hs hr) h

theorem regMeths_reachable (mro : List ClsDict) (processed : List String) :
    ∀ (mds : List MethodDef) (s : Observer BoundMeth)
      (clsProc : List String) (out : Observer BoundMeth × List String),
      Reachable s →
      regMeths mro processed mds s clsProc = some out →
      Reachable out.1 := by
  intro mds
  induction mds with
  | nil =>
    intro s clsProc out hs h
    simp only [regMeths] at h
    injection h with h'
    rw [← h']
    exact hs
  | cons md rest ih =>
    rcases md with ⟨mname2, odecls⟩
    intro s clsProc out hs h
    cases odecls with
    | none =>
      simp only [regMeths] at h
      exact ih s clsProc out hs h
    | some decls2 =>
      simp only [regMeths] at h
      rcases hr : regDecls mro mname2 processed decls2 s clsProc
        with _ | ⟨s1, cp1⟩
      · rw [hr] at h; simp at h
      · rw [hr] at h
        simp only [] at h
        exact ih s1 cp1 out
          (regDecls_reachable mro mname2 processed decls2 s clsProc
            (s1, cp1) hs hr) h

theorem scanClasses_reachable (mro : List ClsDict) :
    ∀ (rest : List ClsDict) (processed : List String)
      (s s' : Observer BoundMeth),
      Reachable s →
      scanClasses mro rest processed s = some s' →
      Reachable s' := by
  intro rest
  induction rest with
  | nil =>
    intro processed s s' hs h
    simp only [scanClasses] at h
    injection h with h'
    rw [← h']
    exact hs
  | cons cls rest' ih =>
    intro processed s s' hs h
    simp only [scanClasses] at h
    rcases hr : regMeths mro processed cls s [] with _ | ⟨s1, clsProc⟩
    · rw [hr] at h; simp at h
    · rw [hr] at h
      simp only [] at h
      exact ih (setUnion processed clsProc) s1 s'
        (regMeths_reachable mro processed cls s [] (s1, clsProc) hs hr) h

/-- Every state produced by instantiation-time (decorator) registration is
also produced by a dynamic registration sequence, so the reachability
hypotheses of the registration theorems cover both paths. -/
theorem observerInitScan_reachable (mro : List ClsDict)
    (s : Observer BoundMeth) (h : observerInitScan mro = some s) :
    Reachable s :=
  scanClasses_reachable mro mro [] (newObserver BoundMeth) s
    ⟨[], rfl⟩ h

/-! ## Claim C4 -/

/-- C4: when an `Observer` subclass is instantiated, every effective
registration `(p, m)` comes from the most derived class of the MRO that
declares `p`, and the registered callable `m` is the instance-bound, most
derived resolution of the declaring method's name — never a shadowed
base-class function. -/
theorem C4_most_derived_registration (mro : List ClsDict)
    (s : Observer BoundMeth) (h : observerInitScan mro = some s)
    (p : String) (m : BoundMeth)
    (hreg : (lookupD s.pat_meth_to_kwargs (p, m)).isSome = true) :
    FromTopDecl mro p m := by
  refine scanClasses_spec mro mro 0 [] (newObserver BoundMeth) s
    (fun j => by simp) (fun j c p' hj _ _ => absurd hj (Nat.not_lt_zero j))
    (fun p' m' hk => by simp [newObserver, lookupD] at hk) h p m hreg

/-- Concrete two-class MRO: the derived class (index 0) declares `"p"` on
method `"meth"`; the base class (index 1) declares `"p"` on its own
`"meth"` and `"q"` on `"other"`. -/
def mroC4 : List ClsDict :=
  [[("meth", some [("p", [])])],
   [("meth", some [("p", [])]), ("other", some [("q", [])])]]

/-- The state the instantiation scan reaches on `mroC4`: `"p"` is
registered once, for the bound method resolved in the derived class. -/
def obsC4 : Observer BoundMeth :=
  ⟨[("p", [("meth", 0)]), ("q", [("other", 1)])],
   [(("meth", 0), ["p"]), (("other", 1), ["q"])],
   [], [],
   [(("p", ("meth", 0)), []), (("q", ("other", 1)), [])]⟩

/-- Witness for C4 at the concrete MRO: the base-class declaration of
`"p"` is suppressed and the registered callable resolves to the derived
class. -/
theorem C4_witness :
    observerInitScan mroC4 = some obsC4 ∧
    (lookupD obsC4.pat_meth_to_kwargs ("p", ("meth", 0))).isSome = true ∧
    (lookupD obsC4.pat_meth_to_kwargs ("p", ("meth", 1))).isSome = false ∧
    FromTopDecl mroC4 "p" ("meth", 0) :=
  ⟨by decide, by decide, by decide,
   C4_most_derived_registration mroC4 obsC4 (by decide) "p" ("meth", 0)
     (by decide)⟩

end Gtkmvc3
